import Mathlib

set_option maxRecDepth 2000

/-!
Verification of the argument-parsing layer of s3find (src/arg.rs).

The file embeds, as executable Lean definitions, the four `FromStr`
implementations of the source: `S3path::from_str`, `FindSize::from_str`,
`FindTime::from_str` and `FindTag::from_str`, together with the error
taxonomy `FindError`.  The three regex-based parsers use the patterns
`([+-]?)(\d*)([kMGTP]?)$`, `([+-]?)(\d*)([smhdw]?)$` and `(\w+):(\w+)$`
of Rust's regex crate, which has leftmost-first (backtracking-preference)
match semantics; the matchers below implement exactly that search for
these fixed pattern shapes.  `\d` and `\w` are modelled at the ASCII
level (decimal digits, alphanumeric-or-underscore).  Machine integers
(`i64`) are modelled as `Int` with explicit two's-complement wrapping
`i64wrap` where the source multiplies, matching release-mode overflow
semantics; `str::parse::<i64>` is modelled by `parseI64`, which rejects
the empty string and out-of-range values.
-/

/-- The `FindError` enum of src/arg.rs. -/
inductive FindError
  | S3Parse
  | SizeParse
  | TimeParse
  | TagParseError
  | TagKeyParseError
  | TagValueParseError
  deriving DecidableEq

/-- The `failure::Error` values that the parsers can actually produce: either a
`FindError` of the crate, or a `std::num::ParseIntError` propagated by `?` from
`str::parse::<i64>`. -/
inductive FailureError
  | find (e : FindError)
  | intParse
  deriving DecidableEq

/-- The `FindSize` enum of src/arg.rs (payload is an `i64` byte count). -/
inductive FindSize
  | Equal (b : Int)
  | Bigger (b : Int)
  | Lower (b : Int)
  deriving DecidableEq

/-- Payload accessor for `FindSize`. -/
def FindSize.bytes : FindSize → Int
  | .Equal b => b
  | .Bigger b => b
  | .Lower b => b

/-- The `FindTime` enum of src/arg.rs (payload is an `i64` second count). -/
inductive FindTime
  | Upper (x : Int)
  | Lower (x : Int)
  deriving DecidableEq

/-- Payload accessor for `FindTime`. -/
def FindTime.seconds : FindTime → Int
  | .Upper x => x
  | .Lower x => x

/-- The `FindTag` struct of src/arg.rs. -/
structure FindTag where
  key : String
  value : String
  deriving DecidableEq

/-- The `S3path` struct of src/arg.rs; the source field `prefix` is named
`pfx` here because `prefix` is a Lean keyword. -/
structure S3path where
  bucket : String
  pfx : Option String
  deriving DecidableEq

/-- Two's-complement wrap into the `i64` range `[-2^63, 2^63)`. -/
def i64wrap (x : Int) : Int :=
  (x + 9223372036854775808) % 18446744073709551616 - 9223372036854775808

/-- `i64::MAX = 2^63 - 1`. -/
def maxI64 : Nat := 9223372036854775807

/-- Numeric value of a decimal digit string (most significant digit first). -/
def digitsVal (l : List Char) : Nat :=
  l.foldl (fun a c => a * 10 + (c.toNat - 48)) 0

/-- Model of `str::parse::<i64>` applied to a capture of `(\d*)`: succeeds
iff the string is a non-empty all-digit string whose value fits in `i64`. -/
def parseI64 (l : List Char) : Option Int :=
  if l ≠ [] ∧ l.all Char.isDigit ∧ digitsVal l ≤ maxI64 then
    some (digitsVal l : Int)
  else none

/-- The character class `[+-]` of both sign groups. -/
def signChars : List Char := ['+', '-']

/-- The character class `[kMGTP]` of the size unit group. -/
def sizeUnits : List Char := ['k', 'M', 'G', 'T', 'P']

/-- The character class `[smhdw]` of the time unit group. -/
def timeUnits : List Char := ['s', 'm', 'h', 'd', 'w']

/-- Backtracking match of the pattern tail `(\d*)([units]?)$` against the whole
list `l`, returning the two captures.  Greedy `\d*` prefers consuming a digit;
since digits and units are disjoint in both parsers, failure of the greedy
branch cannot be rescued by stopping the digit run earlier, which the
`c :: c2 :: rest` equation reflects. -/
def matchDU (units : List Char) : List Char → Option (List Char × List Char)
  | [] => some ([], [])
  | [c] =>
      if c.isDigit then some ([c], [])
      else if c ∈ units then some ([], [c])
      else none
  | c :: c2 :: rest =>
      if c.isDigit then
        (matchDU units (c2 :: rest)).map (fun du => (c :: du.1, du.2))
      else none

/-- Backtracking match of `([+-]?)(\d*)([units]?)$` against the whole list:
the optional sign group greedily consumes a leading sign character and falls
back to the empty sign on failure. -/
def matchAt (signs units : List Char) :
    List Char → Option (List Char × List Char × List Char)
  | [] => some ([], [], [])
  | c :: rest =>
      if c ∈ signs then
        match matchDU units rest with
        | some du => some ([c], du.1, du.2)
        | none => (matchDU units (c :: rest)).map (fun du => ([], du.1, du.2))
      else (matchDU units (c :: rest)).map (fun du => ([], du.1, du.2))

/-- Leftmost match: `Regex::captures` tries successive start positions from the
left and returns the first position at which the pattern matches; since every
group is optional and the pattern is `$`-anchored, the empty match at the end
of the string always exists. -/
def capturesSearch (signs units : List Char) :
    List Char → Option (List Char × List Char × List Char)
  | [] => some ([], [], [])
  | c :: rest =>
      match matchAt signs units (c :: rest) with
      | some caps => some caps
      | none => capturesSearch signs units rest

/-- The `match metric` expression of `FindSize::from_str`: maps the unit
capture (via `chars().next()`) to the byte count, each `*` wrapping as `i64`
multiplication does. -/
def sizeBytes (number : Int) : Option Char → Option Int
  | none => some number
  | some 'k' => some (i64wrap (number * 1024))
  | some 'M' => some (i64wrap (number * 1024 ^ 2))
  | some 'G' => some (i64wrap (number * 1024 ^ 3))
  | some 'T' => some (i64wrap (number * 1024 ^ 4))
  | some 'P' => some (i64wrap (number * 1024 ^ 5))
  | some _ => none

/-- The final `match sign` of `FindSize::from_str`. -/
def applySizeSign : Option Char → Int → Except FailureError FindSize
  | some '+', b => .ok (.Bigger b)
  | some '-', b => .ok (.Lower b)
  | none, b => .ok (.Equal b)
  | some _, _ => .error (.find .SizeParse)

/-- Body of `FindSize::from_str` after the regex has produced its three
captures: parse the digits (propagating the int-parse error first, as the
source's `?` does), then map the unit, then the sign. -/
def FindSize.fromCaps (caps : List Char × List Char × List Char) :
    Except FailureError FindSize :=
  match parseI64 caps.2.1 with
  | none => .error .intParse
  | some number =>
      match sizeBytes number caps.2.2.head? with
      | none => .error (.find .SizeParse)
      | some bytes => applySizeSign caps.1.head? bytes

/-- `FindSize::from_str`.  The outer `Option` models the
`re.captures(s).unwrap()`: `none` would be a panic. -/
def FindSize.fromStr (s : String) : Option (Except FailureError FindSize) :=
  (capturesSearch signChars sizeUnits s.data).map FindSize.fromCaps

/-- The `match metric` expression of `FindTime::from_str`; `d` and `w`
multiply step by step (`* 3600 * 24`, `* 3600 * 24 * 7`) exactly as the
source does, each step wrapping. -/
def timeSecondsOf (number : Int) : Option Char → Option Int
  | none => some number
  | some 's' => some number
  | some 'm' => some (i64wrap (number * 60))
  | some 'h' => some (i64wrap (number * 3600))
  | some 'd' => some (i64wrap (i64wrap (number * 3600) * 24))
  | some 'w' => some (i64wrap (i64wrap (i64wrap (number * 3600) * 24) * 7))
  | some _ => none

/-- The final `match sign` of `FindTime::from_str`: an absent sign also
yields `Upper`. -/
def applyTimeSign : Option Char → Int → Except FailureError FindTime
  | some '+', x => .ok (.Upper x)
  | some '-', x => .ok (.Lower x)
  | none, x => .ok (.Upper x)
  | some _, _ => .error (.find .TimeParse)

/-- Body of `FindTime::from_str` after the regex captures. -/
def FindTime.fromCaps (caps : List Char × List Char × List Char) :
    Except FailureError FindTime :=
  match parseI64 caps.2.1 with
  | none => .error .intParse
  | some number =>
      match timeSecondsOf number caps.2.2.head? with
      | none => .error (.find .TimeParse)
      | some seconds => applyTimeSign caps.1.head? seconds

/-- `FindTime::from_str`; the outer `Option` models the captures unwrap. -/
def FindTime.fromStr (s : String) : Option (Except FailureError FindTime) :=
  (capturesSearch signChars timeUnits s.data).map FindTime.fromCaps

/-- ASCII model of the regex class `\w`. -/
def isWordChar (c : Char) : Bool := c.isAlphanum || c = '_'

/-- Match of `(\w+):(\w+)$` at one start position.  Greedy `\w+` takes the
maximal word run; a shorter first group would be followed by a word character
rather than `:`, so no backtracking into the run can succeed, and the second
group must consume everything up to the anchored end. -/
def tagAt (l : List Char) : Option (List Char × List Char) :=
  let k := l.takeWhile isWordChar
  if k = [] then none
  else
    match l.dropWhile isWordChar with
    | ':' :: rest =>
        if rest ≠ [] ∧ rest.all isWordChar then some (k, rest) else none
    | _ => none

/-- Leftmost-position search for `(\w+):(\w+)$`; unlike the size/time
patterns it can fail, since `\w+` cannot match the empty string. -/
def tagSearch : List Char → Option (List Char × List Char)
  | [] => none
  | c :: rest =>
      match tagAt (c :: rest) with
      | some kv => some kv
      | none => tagSearch rest

/-- `FindTag::from_str`.  On a successful match both groups of
`(\w+):(\w+)$` necessarily participate, so the `ok_or(TagKeyParseError)` and
`ok_or(TagValueParseError)` on `m.get(1)` / `m.get(2)` can never take the
error branch; only the `ok_or(TagParseError)` on the captures can. -/
def FindTag.fromStr (s : String) : Except FailureError FindTag :=
  match tagSearch s.data with
  | none => .error (.find .TagParseError)
  | some kv => .ok ⟨⟨kv.1⟩, ⟨kv.2⟩⟩

/-- Model of Rust's `str::split('/')`: splits into (possibly empty) segments,
one more segment than there are separators. -/
def splitCh (sep : Char) : List Char → List (List Char)
  | [] => [[]]
  | c :: rest =>
      if c = sep then [] :: splitCh sep rest
      else
        match splitCh sep rest with
        | [] => [[c]]
        | h :: t => (c :: h) :: t

/-- `S3path::from_str`: split on `/`, take segment 2 as bucket (via
`get(2).unwrap_or(&"")`), segment 3 as the optional path part, and validate
that segment 0 is `"s3:"`, segment 1 is empty and the bucket is non-empty.
The source binds `bucket`/`prefix` with `let` before validating; the bindings
are inlined here. -/
def S3path.fromStr (s : String) : Except FailureError S3path :=
  if (splitCh '/' s.data).get? 0 = some ("s3:".data) ∧
      (splitCh '/' s.data).get? 1 = some ([] : List Char) ∧
      ((splitCh '/' s.data).get? 2).getD [] ≠ [] then
    .ok ⟨⟨((splitCh '/' s.data).get? 2).getD []⟩,
         ((splitCh '/' s.data).get? 3).map (fun l => (⟨l⟩ : String))⟩
  else .error (.find .S3Parse)

/-- Decimal digit character (only applied to values `< 10`). -/
def natDigitChar : Nat → Char
  | 0 => '0'
  | 1 => '1'
  | 2 => '2'
  | 3 => '3'
  | 4 => '4'
  | 5 => '5'
  | 6 => '6'
  | 7 => '7'
  | 8 => '8'
  | _ => '9'

/-- Fuelled decimal rendering (fuel `n + 1` always suffices). -/
def natToDigitsAux : Nat → Nat → List Char
  | 0, _ => []
  | fuel + 1, n =>
      if n < 10 then [natDigitChar n]
      else natToDigitsAux fuel (n / 10) ++ [natDigitChar (n % 10)]

/-- Decimal rendering of a natural number. -/
def natToDigits (n : Nat) : List Char := natToDigitsAux (n + 1) n

/-- Modelled from the spec: the repository implements no string rendering for
`FindSize`, so the "canonical string form" of a parsed size is modelled from
the spec's grammar as the variant's sign (`+` for Bigger, `-` for Lower, none
for Equal) followed by the byte count in decimal, with no unit suffix. -/
def FindSize.canonical : FindSize → String
  | .Equal b => ⟨natToDigits b.toNat⟩
  | .Bigger b => ⟨'+' :: natToDigits b.toNat⟩
  | .Lower b => ⟨'-' :: natToDigits b.toNat⟩

/-- Modelled from the spec: canonical string form of a parsed time, the sign
(`-` for Lower, none for Upper since an absent sign defaults to Upper)
followed by the second count in decimal, with no unit suffix. -/
def FindTime.canonical : FindTime → String
  | .Upper x => ⟨natToDigits x.toNat⟩
  | .Lower x => ⟨'-' :: natToDigits x.toNat⟩

/-- The list of characters contributed by an optional sign or unit. -/
def optList : Option Char → List Char
  | none => []
  | some c => [c]

/-- Variant selected by the sign capture of a size literal. -/
def sizeVariant : Option Char → Int → FindSize
  | some '+', b => .Bigger b
  | some '-', b => .Lower b
  | _, b => .Equal b

/-- Variant selected by the sign capture of a time literal. -/
def timeVariant : Option Char → Int → FindTime
  | some '-', x => .Lower x
  | _, x => .Upper x

/-- The 1024-power multiplier of a size unit. -/
def sizeMultOf : Option Char → Int
  | some 'k' => 1024
  | some 'M' => 1024 ^ 2
  | some 'G' => 1024 ^ 3
  | some 'T' => 1024 ^ 4
  | some 'P' => 1024 ^ 5
  | _ => 1

/-- The seconds multiplier of a time unit. -/
def timeMultOf : Option Char → Int
  | some 'm' => 60
  | some 'h' => 3600
  | some 'd' => 86400
  | some 'w' => 604800
  | _ => 1

/-! ### Arithmetic helper lemmas -/

theorem i64wrap_eq_self {x : Int} (h0 : 0 ≤ x) (h1 : x ≤ (maxI64 : Int)) :
    i64wrap x = x := by
  unfold i64wrap
  unfold maxI64 at h1
  omega

theorem i64wrap_emod (x : Int) :
    i64wrap x % 18446744073709551616 = x % 18446744073709551616 := by
  unfold i64wrap
  omega

theorem i64wrap_congr {a b : Int}
    (h : a % 18446744073709551616 = b % 18446744073709551616) :
    i64wrap a = i64wrap b := by
  unfold i64wrap
  omega

theorem i64wrap_mul_left (a b : Int) :
    i64wrap (i64wrap a * b) = i64wrap (a * b) := by
  apply i64wrap_congr
  conv_lhs => rw [Int.mul_emod, i64wrap_emod, ← Int.mul_emod]

theorem parseI64_some {l : List Char} (hne : l ≠ [])
    (hd : l.all Char.isDigit) (hmax : digitsVal l ≤ maxI64) :
    parseI64 l = some (digitsVal l : Int) := by
  unfold parseI64
  rw [if_pos ⟨hne, hd, hmax⟩]

theorem parseI64_inv {l : List Char} {n : Int} (h : parseI64 l = some n) :
    0 ≤ n ∧ n ≤ (maxI64 : Int) := by
  unfold parseI64 at h
  split at h
  · rename_i hc
    injection h with h
    subst h
    exact ⟨Int.ofNat_nonneg _, by exact_mod_cast hc.2.2⟩
  · cases h

/-! ### Regex-matcher lemmas -/

theorem matchDU_complete (units : List Char) (hu : ∀ c ∈ units, ¬ c.isDigit) :
    ∀ ds ul, ds.all Char.isDigit → (ul = [] ∨ ∃ u, ul = [u] ∧ u ∈ units) →
    matchDU units (ds ++ ul) = some (ds, ul) := by
  intro ds
  induction ds with
  | nil =>
      intro ul _ hul
      rcases hul with rfl | ⟨u, rfl, hmem⟩
      · rfl
      · simp [matchDU, hu u hmem, hmem]
  | cons c ds ih =>
      intro ul hd hul
      have hc : c.isDigit := by
        simp only [List.all_cons, Bool.and_eq_true] at hd
        exact hd.1
      have hds : ds.all Char.isDigit := by
        simp only [List.all_cons, Bool.and_eq_true] at hd
        exact hd.2
      show matchDU units (c :: (ds ++ ul)) = some (c :: ds, ul)
      cases htl : ds ++ ul with
      | nil =>
          obtain ⟨rfl, rfl⟩ := List.append_eq_nil.mp htl
          simp [matchDU, hc]
      | cons x xs =>
          have h2 := ih ul hds hul
          rw [htl] at h2
          show (if c.isDigit then
              (matchDU units (x :: xs)).map (fun du => (c :: du.1, du.2))
            else none) = some (c :: ds, ul)
          rw [if_pos hc, h2]
          rfl

theorem matchAt_sign {signs units : List Char} {c : Char} {l d u : List Char}
    (hcs : c ∈ signs) (h : matchDU units l = some (d, u)) :
    matchAt signs units (c :: l) = some ([c], d, u) := by
  simp [matchAt, hcs, h]

theorem matchAt_nosign {signs units : List Char} {c : Char} {l d u : List Char}
    (hns : c ∉ signs) (h : matchDU units (c :: l) = some (d, u)) :
    matchAt signs units (c :: l) = some ([], d, u) := by
  simp [matchAt, hns, h]

theorem capturesSearch_cons_of_matchAt {signs units : List Char} {c : Char}
    {l : List Char} {caps : List Char × List Char × List Char}
    (h : matchAt signs units (c :: l) = some caps) :
    capturesSearch signs units (c :: l) = some caps := by
  simp [capturesSearch, h]

theorem capturesSearch_literal (signs units : List Char)
    (hs : ∀ c ∈ signs, ¬ c.isDigit) (hu : ∀ c ∈ units, ¬ c.isDigit)
    (sg : Option Char) (ds ul : List Char)
    (hsg : sg = none ∨ ∃ c, sg = some c ∧ c ∈ signs)
    (hne : ds ≠ []) (hd : ds.all Char.isDigit)
    (hul : ul = [] ∨ ∃ u, ul = [u] ∧ u ∈ units) :
    capturesSearch signs units (optList sg ++ ds ++ ul) =
      some (optList sg, ds, ul) := by
  rcases hsg with rfl | ⟨c, rfl, hcs⟩
  · cases ds with
    | nil => exact absurd rfl hne
    | cons d ds' =>
        have hd1 : d.isDigit := by
          simp only [List.all_cons, Bool.and_eq_true] at hd
          exact hd.1
        have hdns : d ∉ signs := fun hmem => hs d hmem hd1
        have hmdu : matchDU units ((d :: ds') ++ ul) = some (d :: ds', ul) :=
          matchDU_complete units hu (d :: ds') ul hd hul
        show capturesSearch signs units ((d :: ds') ++ ul) = _
        rw [List.cons_append]
        exact capturesSearch_cons_of_matchAt
          (matchAt_nosign hdns (by rwa [← List.cons_append]))
  · have hmdu : matchDU units (ds ++ ul) = some (ds, ul) :=
      matchDU_complete units hu ds ul hd hul
    show capturesSearch signs units (c :: (ds ++ ul)) = some ([c], ds, ul)
    exact capturesSearch_cons_of_matchAt (matchAt_sign hcs hmdu)

theorem capturesSearch_isSome (signs units : List Char) :
    ∀ l : List Char, (capturesSearch signs units l).isSome := by
  intro l
  induction l with
  | nil => rfl
  | cons c rest ih =>
      show (capturesSearch signs units (c :: rest)).isSome
      rw [capturesSearch]
      cases h : matchAt signs units (c :: rest) with
      | none => exact ih
      | some caps => rfl

theorem matchDU_shape {units : List Char} :
    ∀ l du, matchDU units l = some du → du.2 = [] ∨ ∃ c, du.2 = [c] ∧ c ∈ units := by
  intro l
  induction l with
  | nil =>
      intro du h
      injection h with h
      subst h
      exact Or.inl rfl
  | cons c tl ih =>
      cases tl with
      | nil =>
          intro du h
          by_cases hc : c.isDigit
          · rw [show matchDU units [c] = some ([c], []) from by simp [matchDU, hc]] at h
            injection h with h
            subst h
            exact Or.inl rfl
          · by_cases hm : c ∈ units
            · rw [show matchDU units [c] = some ([], [c]) from by simp [matchDU, hc, hm]] at h
              injection h with h
              subst h
              exact Or.inr ⟨c, rfl, hm⟩
            · rw [show matchDU units [c] = none from by simp [matchDU, hc, hm]] at h
              cases h
      | cons c2 rest =>
          intro du h
          by_cases hc : c.isDigit
          · rw [show matchDU units (c :: c2 :: rest) =
                (matchDU units (c2 :: rest)).map (fun du => (c :: du.1, du.2)) from by
              simp [matchDU, hc]] at h
            cases hm : matchDU units (c2 :: rest) with
            | none => rw [hm] at h; cases h
            | some du' =>
                rw [hm] at h
                injection h with h
                subst h
                exact ih du' hm
          · rw [show matchDU units (c :: c2 :: rest) = none from by simp [matchDU, hc]] at h
            cases h

theorem matchAt_shape {signs units : List Char} :
    ∀ l caps, matchAt signs units l = some caps →
      (caps.1 = [] ∨ ∃ c, caps.1 = [c] ∧ c ∈ signs) ∧
      (caps.2.2 = [] ∨ ∃ c, caps.2.2 = [c] ∧ c ∈ units) := by
  intro l caps h
  cases l with
  | nil =>
      injection h with h
      subst h
      exact ⟨Or.inl rfl, Or.inl rfl⟩
  | cons c rest =>
      by_cases hc : c ∈ signs
      · rw [show matchAt signs units (c :: rest) =
            (match matchDU units rest with
             | some du => some ([c], du.1, du.2)
             | none => (matchDU units (c :: rest)).map (fun du => ([], du.1, du.2))) from by
          simp [matchAt, hc]] at h
        cases hm : matchDU units rest with
        | some du =>
            rw [hm] at h
            injection h with h
            subst h
            exact ⟨Or.inr ⟨c, rfl, hc⟩, matchDU_shape rest du hm⟩
        | none =>
            rw [hm] at h
            cases hm2 : matchDU units (c :: rest) with
            | none => rw [hm2] at h; cases h
            | some du =>
                rw [hm2] at h
                injection h with h
                subst h
                exact ⟨Or.inl rfl, matchDU_shape (c :: rest) du hm2⟩
      · rw [show matchAt signs units (c :: rest) =
            (matchDU units (c :: rest)).map (fun du => ([], du.1, du.2)) from by
          simp [matchAt, hc]] at h
        cases hm2 : matchDU units (c :: rest) with
        | none => rw [hm2] at h; cases h
        | some du =>
            rw [hm2] at h
            injection h with h
            subst h
            exact ⟨Or.inl rfl, matchDU_shape (c :: rest) du hm2⟩

theorem capturesSearch_shape {signs units : List Char} :
    ∀ l caps, capturesSearch signs units l = some caps →
      (caps.1 = [] ∨ ∃ c, caps.1 = [c] ∧ c ∈ signs) ∧
      (caps.2.2 = [] ∨ ∃ c, caps.2.2 = [c] ∧ c ∈ units) := by
  intro l
  induction l with
  | nil =>
      intro caps h
      injection h with h
      subst h
      exact ⟨Or.inl rfl, Or.inl rfl⟩
  | cons c rest ih =>
      intro caps h
      rw [capturesSearch] at h
      cases hm : matchAt signs units (c :: rest) with
      | some caps' =>
          rw [hm] at h
          injection h with h
          exact h ▸ matchAt_shape (c :: rest) caps' hm
      | none =>
          rw [hm] at h
          exact ih caps h

/-! ### Parsing a well-formed literal `[sign][digits][unit]` -/

theorem sizeFromStr_literal (sg u : Option Char) (ds : List Char)
    (hsg : sg = none ∨ sg = some '+' ∨ sg = some '-')
    (hu : u = none ∨ u = some 'k' ∨ u = some 'M' ∨ u = some 'G' ∨
          u = some 'T' ∨ u = some 'P')
    (hne : ds ≠ []) (hd : ds.all Char.isDigit) (hmax : digitsVal ds ≤ maxI64) :
    FindSize.fromStr ⟨optList sg ++ ds ++ optList u⟩ =
      some (Except.ok (sizeVariant sg
        (i64wrap ((digitsVal ds : Int) * sizeMultOf u)))) := by
  have h1 : (digitsVal ds : Int) ≤ (maxI64 : Int) := by exact_mod_cast hmax
  have hwrap : i64wrap ((digitsVal ds : Int)) = (digitsVal ds : Int) :=
    i64wrap_eq_self (Int.ofNat_nonneg _) h1
  have hsg2 : sg = none ∨ ∃ c, sg = some c ∧ c ∈ signChars := by
    rcases hsg with rfl | rfl | rfl
    · exact Or.inl rfl
    · exact Or.inr ⟨'+', rfl, by decide⟩
    · exact Or.inr ⟨'-', rfl, by decide⟩
  have hul : optList u = [] ∨ ∃ c, optList u = [c] ∧ c ∈ sizeUnits := by
    rcases hu with rfl | rfl | rfl | rfl | rfl | rfl
    · exact Or.inl rfl
    · exact Or.inr ⟨'k', rfl, by decide⟩
    · exact Or.inr ⟨'M', rfl, by decide⟩
    · exact Or.inr ⟨'G', rfl, by decide⟩
    · exact Or.inr ⟨'T', rfl, by decide⟩
    · exact Or.inr ⟨'P', rfl, by decide⟩
  have hcap := capturesSearch_literal signChars sizeUnits (by decide) (by decide)
    sg ds (optList u) hsg2 hne hd hul
  show (capturesSearch signChars sizeUnits (optList sg ++ ds ++ optList u)).map
      FindSize.fromCaps = _
  rw [hcap]
  show some (FindSize.fromCaps (optList sg, ds, optList u)) = _
  rw [show FindSize.fromCaps (optList sg, ds, optList u) =
      (match parseI64 ds with
       | none => Except.error FailureError.intParse
       | some number =>
          match sizeBytes number (optList u).head? with
          | none => Except.error (.find .SizeParse)
          | some bytes => applySizeSign (optList sg).head? bytes) from rfl]
  rw [parseI64_some hne hd hmax]
  rcases hu with rfl | rfl | rfl | rfl | rfl | rfl <;>
    rcases hsg with rfl | rfl | rfl <;>
    simp [optList, sizeBytes, applySizeSign, sizeVariant, sizeMultOf, mul_one, hwrap]

theorem timeFromStr_literal (sg u : Option Char) (ds : List Char)
    (hsg : sg = none ∨ sg = some '+' ∨ sg = some '-')
    (hu : u = none ∨ u = some 's' ∨ u = some 'm' ∨ u = some 'h' ∨
          u = some 'd' ∨ u = some 'w')
    (hne : ds ≠ []) (hd : ds.all Char.isDigit) (hmax : digitsVal ds ≤ maxI64) :
    FindTime.fromStr ⟨optList sg ++ ds ++ optList u⟩ =
      some (Except.ok (timeVariant sg
        (i64wrap ((digitsVal ds : Int) * timeMultOf u)))) := by
  have h1 : (digitsVal ds : Int) ≤ (maxI64 : Int) := by exact_mod_cast hmax
  have hwrap : i64wrap ((digitsVal ds : Int)) = (digitsVal ds : Int) :=
    i64wrap_eq_self (Int.ofNat_nonneg _) h1
  have hd24 : ∀ n : Int, i64wrap (i64wrap (n * 3600) * 24) = i64wrap (n * 86400) := by
    intro n
    rw [i64wrap_mul_left]
    exact congrArg i64wrap (by ring)
  have hw7 : ∀ n : Int,
      i64wrap (i64wrap (n * 86400) * 7) = i64wrap (n * 604800) := by
    intro n
    rw [i64wrap_mul_left]
    exact congrArg i64wrap (by ring)
  have hsg2 : sg = none ∨ ∃ c, sg = some c ∧ c ∈ signChars := by
    rcases hsg with rfl | rfl | rfl
    · exact Or.inl rfl
    · exact Or.inr ⟨'+', rfl, by decide⟩
    · exact Or.inr ⟨'-', rfl, by decide⟩
  have hul : optList u = [] ∨ ∃ c, optList u = [c] ∧ c ∈ timeUnits := by
    rcases hu with rfl | rfl | rfl | rfl | rfl | rfl
    · exact Or.inl rfl
    · exact Or.inr ⟨'s', rfl, by decide⟩
    · exact Or.inr ⟨'m', rfl, by decide⟩
    · exact Or.inr ⟨'h', rfl, by decide⟩
    · exact Or.inr ⟨'d', rfl, by decide⟩
    · exact Or.inr ⟨'w', rfl, by decide⟩
  have hcap := capturesSearch_literal signChars timeUnits (by decide) (by decide)
    sg ds (optList u) hsg2 hne hd hul
  show (capturesSearch signChars timeUnits (optList sg ++ ds ++ optList u)).map
      FindTime.fromCaps = _
  rw [hcap]
  show some (FindTime.fromCaps (optList sg, ds, optList u)) = _
  rw [show FindTime.fromCaps (optList sg, ds, optList u) =
      (match parseI64 ds with
       | none => Except.error FailureError.intParse
       | some number =>
          match timeSecondsOf number (optList u).head? with
          | none => Except.error (.find .TimeParse)
          | some seconds => applyTimeSign (optList sg).head? seconds) from rfl]
  rw [parseI64_some hne hd hmax]
  rcases hu with rfl | rfl | rfl | rfl | rfl | rfl <;>
    rcases hsg with rfl | rfl | rfl <;>
    simp [optList, timeSecondsOf, applyTimeSign, timeVariant, timeMultOf, mul_one,
      hwrap, hd24, hw7]

/-! ### Decimal rendering -/

theorem natDigitChar_isDigit {d : Nat} (h : d < 10) : (natDigitChar d).isDigit := by
  interval_cases d <;> decide

theorem natDigitChar_toNat {d : Nat} (h : d < 10) : (natDigitChar d).toNat = 48 + d := by
  interval_cases d <;> decide

theorem digitsVal_append_singleton (l : List Char) (c : Char) :
    digitsVal (l ++ [c]) = 10 * digitsVal l + (c.toNat - 48) := by
  unfold digitsVal
  rw [List.foldl_append]
  show digitsVal l * 10 + (c.toNat - 48) = 10 * digitsVal l + (c.toNat - 48)
  omega

theorem natToDigitsAux_spec :
    ∀ fuel n, n < fuel →
      natToDigitsAux fuel n ≠ [] ∧ (natToDigitsAux fuel n).all Char.isDigit ∧
      digitsVal (natToDigitsAux fuel n) = n := by
  intro fuel
  induction fuel with
  | zero => intro n h; exact absurd h (Nat.not_lt_zero n)
  | succ fuel ih =>
      intro n h
      by_cases h10 : n < 10
      · rw [show natToDigitsAux (fuel + 1) n = [natDigitChar n] from by
          simp [natToDigitsAux, h10]]
        refine ⟨by simp, by simp [natDigitChar_isDigit h10], ?_⟩
        show digitsVal ([] ++ [natDigitChar n]) = n
        rw [digitsVal_append_singleton, natDigitChar_toNat h10]
        show 10 * digitsVal [] + (48 + n - 48) = n
        unfold digitsVal
        simp
      · rw [show natToDigitsAux (fuel + 1) n =
            natToDigitsAux fuel (n / 10) ++ [natDigitChar (n % 10)] from by
          simp [natToDigitsAux, h10]]
        have hlt : n / 10 < fuel := by omega
        obtain ⟨hne, hall, hval⟩ := ih (n / 10) hlt
        have hm : n % 10 < 10 := Nat.mod_lt _ (by norm_num)
        refine ⟨by simp, ?_, ?_⟩
        · rw [List.all_append]
          simp [hall, natDigitChar_isDigit hm]
        · rw [digitsVal_append_singleton, hval, natDigitChar_toNat hm]
          omega

theorem natToDigits_ne_nil (n : Nat) : natToDigits n ≠ [] :=
  (natToDigitsAux_spec (n + 1) n (Nat.lt_succ_self n)).1

theorem natToDigits_all_isDigit (n : Nat) : (natToDigits n).all Char.isDigit :=
  (natToDigitsAux_spec (n + 1) n (Nat.lt_succ_self n)).2.1

theorem digitsVal_natToDigits (n : Nat) : digitsVal (natToDigits n) = n :=
  (natToDigitsAux_spec (n + 1) n (Nat.lt_succ_self n)).2.2

/-! ### Error paths of the size/time parsers -/

theorem sizeFromCaps_error {caps : List Char × List Char × List Char}
    {e : FailureError}
    (hs : caps.1 = [] ∨ ∃ c, caps.1 = [c] ∧ c ∈ signChars)
    (hu : caps.2.2 = [] ∨ ∃ c, caps.2.2 = [c] ∧ c ∈ sizeUnits)
    (h : FindSize.fromCaps caps = .error e) : e = .intParse := by
  obtain ⟨sgl, ds, ul⟩ := caps
  simp only at hs hu
  cases hp : parseI64 ds with
  | none =>
      simp only [FindSize.fromCaps, hp] at h
      injection h with h
      exact h.symm
  | some n =>
      cases hb : sizeBytes n ul.head? with
      | none =>
          exfalso
          rcases hu with rfl | ⟨c2, rfl, hc2⟩
          · exact Option.noConfusion hb
          · fin_cases hc2 <;> exact Option.noConfusion hb
      | some b =>
          simp only [FindSize.fromCaps, hp, hb] at h
          rcases hs with rfl | ⟨c1, rfl, hc1⟩
          · exact Except.noConfusion h
          · fin_cases hc1 <;> exact Except.noConfusion h

theorem timeFromCaps_error {caps : List Char × List Char × List Char}
    {e : FailureError}
    (hs : caps.1 = [] ∨ ∃ c, caps.1 = [c] ∧ c ∈ signChars)
    (hu : caps.2.2 = [] ∨ ∃ c, caps.2.2 = [c] ∧ c ∈ timeUnits)
    (h : FindTime.fromCaps caps = .error e) : e = .intParse := by
  obtain ⟨sgl, ds, ul⟩ := caps
  simp only at hs hu
  cases hp : parseI64 ds with
  | none =>
      simp only [FindTime.fromCaps, hp] at h
      injection h with h
      exact h.symm
  | some n =>
      cases hb : timeSecondsOf n ul.head? with
      | none =>
          exfalso
          rcases hu with rfl | ⟨c2, rfl, hc2⟩
          · exact Option.noConfusion hb
          · fin_cases hc2 <;> exact Option.noConfusion hb
      | some b =>
          simp only [FindTime.fromCaps, hp, hb] at h
          rcases hs with rfl | ⟨c1, rfl, hc1⟩
          · exact Except.noConfusion h
          · fin_cases hc1 <;> exact Except.noConfusion h

theorem tagFromStr_error (s : String) (e : FailureError)
    (h : FindTag.fromStr s = .error e) : e = .find .TagParseError := by
  unfold FindTag.fromStr at h
  cases ht : tagSearch s.data with
  | none =>
      rw [ht] at h
      injection h with h
      exact h.symm
  | some kv =>
      rw [ht] at h
      exact Except.noConfusion h

/-! ### Tag matcher lemmas -/

theorem takeWhile_all_append {p : Char → Bool} {l : List Char} {c : Char}
    (r : List Char) (hl : l.all p) (hc : ¬ p c) :
    (l ++ c :: r).takeWhile p = l := by
  induction l with
  | nil => simp [List.takeWhile_cons, hc]
  | cons x xs ih =>
      simp only [List.all_cons, Bool.and_eq_true] at hl
      simp [List.takeWhile_cons, hl.1, ih hl.2]

theorem dropWhile_all_append {p : Char → Bool} {l : List Char} {c : Char}
    (r : List Char) (hl : l.all p) (hc : ¬ p c) :
    (l ++ c :: r).dropWhile p = c :: r := by
  induction l with
  | nil => simp [List.dropWhile_cons, hc]
  | cons x xs ih =>
      simp only [List.all_cons, Bool.and_eq_true] at hl
      simp [List.dropWhile_cons, hl.1, ih hl.2]

theorem tagAt_sound {l k v : List Char} (h : tagAt l = some (k, v)) :
    l = k ++ ':' :: v ∧ k ≠ [] ∧ k.all isWordChar ∧ v ≠ [] ∧ v.all isWordChar := by
  unfold tagAt at h
  simp only at h
  split at h
  · exact Option.noConfusion h
  · rename_i hk
    split at h
    · rename_i rest heq
      split at h
      · rename_i hrest
        injection h with h
        rw [Prod.mk.injEq] at h
        obtain ⟨h1, h2⟩ := h
        subst h1
        subst h2
        refine ⟨?_, hk, ?_, hrest.1, hrest.2⟩
        · conv_lhs => rw [← List.takeWhile_append_dropWhile (p := isWordChar) (l := l)]
          rw [heq]
        · rw [List.all_eq_true]
          intro x hx
          exact List.mem_takeWhile_imp hx
      · exact Option.noConfusion h
    · exact Option.noConfusion h

theorem tagAt_complete {k v : List Char} (hk : k ≠ []) (hka : k.all isWordChar)
    (hv : v ≠ []) (hva : v.all isWordChar) :
    tagAt (k ++ ':' :: v) = some (k, v) := by
  have ht : (k ++ ':' :: v).takeWhile isWordChar = k :=
    takeWhile_all_append v hka (by decide)
  have hdw : (k ++ ':' :: v).dropWhile isWordChar = ':' :: v :=
    dropWhile_all_append v hka (by decide)
  unfold tagAt
  simp only [ht, hdw]
  rw [if_neg hk]
  simp [hv, hva]

theorem tagSearch_sound :
    ∀ l k v, tagSearch l = some (k, v) →
      ∃ pre, l = pre ++ k ++ ':' :: v ∧ k ≠ [] ∧ k.all isWordChar ∧
        v ≠ [] ∧ v.all isWordChar := by
  intro l
  induction l with
  | nil => intro k v h; exact Option.noConfusion h
  | cons c rest ih =>
      intro k v h
      rw [tagSearch] at h
      cases ht : tagAt (c :: rest) with
      | some kv =>
          rw [ht] at h
          injection h with h
          subst h
          obtain ⟨heq, hk, hka, hv, hva⟩ := tagAt_sound ht
          exact ⟨[], by simpa using heq, hk, hka, hv, hva⟩
      | none =>
          rw [ht] at h
          obtain ⟨pre, hp, hk, hka, hv, hva⟩ := ih k v h
          exact ⟨c :: pre, by simp [hp], hk, hka, hv, hva⟩

theorem tagSearch_complete :
    ∀ pre k v : List Char, k ≠ [] → k.all isWordChar → v ≠ [] → v.all isWordChar →
      (tagSearch (pre ++ k ++ ':' :: v)).isSome := by
  intro pre
  induction pre with
  | nil =>
      intro k v hk hka hv hva
      cases k with
      | nil => exact absurd rfl hk
      | cons c k' =>
          have hcomp := tagAt_complete hk hka hv hva
          rw [List.cons_append] at hcomp
          show (tagSearch ([] ++ (c :: k') ++ ':' :: v)).isSome
          rw [List.nil_append, List.cons_append, tagSearch, hcomp]
          rfl
  | cons c p ih =>
      intro k v hk hka hv hva
      show (tagSearch (c :: (p ++ k ++ ':' :: v))).isSome
      rw [tagSearch]
      cases ht : tagAt (c :: (p ++ k ++ ':' :: v)) with
      | some kv => rfl
      | none => exact ih k v hk hka hv hva

/-! ### Split lemmas for the S3 path parser -/

theorem splitCh_ne_nil (sep : Char) : ∀ l, splitCh sep l ≠ [] := by
  intro l
  induction l with
  | nil => simp [splitCh]
  | cons c rest ih =>
      rw [splitCh]
      by_cases hc : c = sep
      · rw [if_pos hc]
        simp
      · rw [if_neg hc]
        cases h : splitCh sep rest <;> simp

theorem splitCh_cons_sep (sep : Char) (l : List Char) :
    splitCh sep (sep :: l) = [] :: splitCh sep l := by
  rw [splitCh, if_pos rfl]

theorem splitCh_cons_ne {sep c : Char} (hc : c ≠ sep) {l h : List Char}
    {t : List (List Char)} (hs : splitCh sep l = h :: t) :
    splitCh sep (c :: l) = (c :: h) :: t := by
  rw [splitCh, if_neg hc, hs]

theorem splitCh_no_sep {sep : Char} : ∀ {l : List Char}, sep ∉ l →
    splitCh sep l = [l] := by
  intro l
  induction l with
  | nil => intro _; rfl
  | cons c rest ih =>
      intro hmem
      have hc : c ≠ sep := fun h => hmem (h ▸ List.mem_cons_self c rest)
      have hrest : sep ∉ rest := fun h => hmem (List.mem_cons_of_mem c h)
      exact splitCh_cons_ne hc (ih hrest)

theorem splitCh_append_sep {sep : Char} :
    ∀ {a : List Char} (b : List Char), sep ∉ a →
      splitCh sep (a ++ sep :: b) = a :: splitCh sep b := by
  intro a
  induction a with
  | nil => intro b _; exact splitCh_cons_sep sep b
  | cons c a' ih =>
      intro b hmem
      have hc : c ≠ sep := fun h => hmem (h ▸ List.mem_cons_self c a')
      have ha' : sep ∉ a' := fun h => hmem (List.mem_cons_of_mem c h)
      rw [List.cons_append]
      exact splitCh_cons_ne hc (ih b ha')

theorem splitCh_cons_inv {sep : Char} :
    ∀ {l a : List Char} {t : List (List Char)}, splitCh sep l = a :: t →
      sep ∉ a ∧ ((t = [] ∧ l = a) ∨ ∃ b, l = a ++ sep :: b ∧ splitCh sep b = t) := by
  intro l
  induction l with
  | nil =>
      intro a t h
      rw [show splitCh sep [] = [[]] from rfl] at h
      injection h with h1 h2
      subst h1
      subst h2
      exact ⟨List.not_mem_nil sep, Or.inl ⟨rfl, rfl⟩⟩
  | cons c rest ih =>
      intro a t h
      by_cases hc : c = sep
      · subst hc
        rw [splitCh_cons_sep] at h
        injection h with h1 h2
        subst h1
        subst h2
        exact ⟨List.not_mem_nil c, Or.inr ⟨rest, rfl, rfl⟩⟩
      · rw [splitCh, if_neg hc] at h
        cases hs : splitCh sep rest with
        | nil => exact absurd hs (splitCh_ne_nil sep rest)
        | cons h' t' =>
            rw [hs] at h
            injection h with h1 h2
            subst h1
            subst h2
            obtain ⟨hmem, hrest⟩ := ih hs
            refine ⟨?_, ?_⟩
            · intro hin
              rcases List.mem_cons.mp hin with heq | hin'
              · exact hc heq.symm
              · exact hmem hin'
            · rcases hrest with ⟨rfl, rfl⟩ | ⟨b, rfl, hb⟩
              · exact Or.inl ⟨rfl, rfl⟩
              · exact Or.inr ⟨b, by simp, hb⟩

/-! ### Small String lemmas -/

theorem str_data_append (a b : String) : (a ++ b).data = a.data ++ b.data := by
  cases a
  cases b
  rfl

theorem str_ne_empty_iff (s : String) : s ≠ "" ↔ s.data ≠ [] := by
  constructor
  · intro h hd
    exact h (by cases s; simp_all [String.ext_iff])
  · intro h hd
    exact h (by simp [hd, String.ext_iff])

/-! ### S3 path lemmas -/

theorem splitCh_s3_prefix (r : List Char) :
    splitCh '/' ("s3://".data ++ r) = "s3:".data :: [] :: splitCh '/' r := by
  have h1 : splitCh '/' ('/' :: r) = [] :: splitCh '/' r := splitCh_cons_sep '/' r
  have h2 : splitCh '/' ('/' :: '/' :: r) = [] :: [] :: splitCh '/' r := by
    rw [splitCh_cons_sep '/' ('/' :: r), h1]
  have h3 := splitCh_cons_ne (show ':' ≠ '/' by decide) h2
  have h4 := splitCh_cons_ne (show '3' ≠ '/' by decide) h3
  have h5 := splitCh_cons_ne (show 's' ≠ '/' by decide) h4
  exact h5

theorem s3FromStr_ok_conditions {s : String}
    (h : ∃ p, S3path.fromStr s = Except.ok p) :
    "s3://".data <+: s.data ∧
      ∃ seg, (splitCh '/' s.data).get? 2 = some seg ∧ seg ≠ [] := by
  obtain ⟨p, hp⟩ := h
  unfold S3path.fromStr at hp
  split at hp
  · rename_i hcond
    obtain ⟨h0, h1, hb⟩ := hcond
    cases hv : splitCh '/' s.data with
    | nil => exact absurd hv (splitCh_ne_nil '/' s.data)
    | cons a t =>
        rw [hv] at h0 h1 hb
        have ha : a = "s3:".data := by
          simp only [List.get?] at h0
          injection h0
        subst ha
        cases t with
        | nil => simp [List.get?] at h1
        | cons a1 t1 =>
            have ha1 : a1 = [] := by
              simp only [List.get?] at h1
              injection h1
            subst ha1
            obtain ⟨_, hrest⟩ := splitCh_cons_inv hv
            rcases hrest with ⟨ht, _⟩ | ⟨b, hl, hb'⟩
            · exact absurd ht (by simp)
            · obtain ⟨_, hrest2⟩ := splitCh_cons_inv hb'
              rcases hrest2 with ⟨ht1, hbeq⟩ | ⟨b2, hbeq, _⟩
              · subst ht1
                simp [List.get?] at hb
              · subst hbeq
                constructor
                · exact ⟨b2, by rw [hl]; rfl⟩
                · simp only [List.get?] at hb ⊢
                  cases t1 with
                  | nil => simp at hb
                  | cons s2 t2 =>
                      simp only [List.get?] at hb ⊢
                      exact ⟨s2, rfl, by simpa using hb⟩
  · exact Except.noConfusion hp

theorem s3FromStr_ok_of_conditions {s : String}
    (hpre : "s3://".data <+: s.data)
    (hseg : ∃ seg, (splitCh '/' s.data).get? 2 = some seg ∧ seg ≠ []) :
    ∃ p, S3path.fromStr s = Except.ok p := by
  obtain ⟨r, hr⟩ := hpre
  obtain ⟨seg, hs2, hsne⟩ := hseg
  have hv : splitCh '/' s.data = "s3:".data :: [] :: splitCh '/' r := by
    rw [← hr]
    exact splitCh_s3_prefix r
  have hcond : (splitCh '/' s.data).get? 0 = some ("s3:".data) ∧
      (splitCh '/' s.data).get? 1 = some ([] : List Char) ∧
      ((splitCh '/' s.data).get? 2).getD [] ≠ [] := by
    refine ⟨by rw [hv]; rfl, by rw [hv]; rfl, ?_⟩
    rw [hs2]
    exact hsne
  unfold S3path.fromStr
  exact ⟨_, if_pos hcond⟩

theorem s3FromStr_bucket_eq {s : String} {p : S3path}
    (h : S3path.fromStr s = Except.ok p) :
    (splitCh '/' s.data).get? 2 = some p.bucket.data := by
  unfold S3path.fromStr at h
  split at h
  · rename_i hcond
    obtain ⟨_, _, hb⟩ := hcond
    injection h with h
    subst h
    cases hg : (splitCh '/' s.data).get? 2 with
    | none =>
        rw [hg] at hb
        exact absurd rfl hb
    | some seg => rfl
  · exact Except.noConfusion h

/-! ### Canonical-form helpers -/

theorem sizeFromStr_digits (sg : Option Char)
    (hsg : sg = none ∨ sg = some '+' ∨ sg = some '-')
    (m : Nat) (hm : m ≤ maxI64) :
    FindSize.fromStr ⟨optList sg ++ natToDigits m⟩ =
      some (Except.ok (sizeVariant sg (m : Int))) := by
  have h := sizeFromStr_literal sg none (natToDigits m) hsg (Or.inl rfl)
    (natToDigits_ne_nil m) (natToDigits_all_isDigit m)
    (by rw [digitsVal_natToDigits]; exact hm)
  rw [show optList sg ++ natToDigits m ++ optList none = optList sg ++ natToDigits m
    from by simp [optList]] at h
  rw [digitsVal_natToDigits] at h
  rw [show sizeMultOf none = 1 from rfl, mul_one] at h
  rw [i64wrap_eq_self (Int.ofNat_nonneg m) (by exact_mod_cast hm)] at h
  exact h

theorem timeFromStr_digits (sg : Option Char)
    (hsg : sg = none ∨ sg = some '+' ∨ sg = some '-')
    (m : Nat) (hm : m ≤ maxI64) :
    FindTime.fromStr ⟨optList sg ++ natToDigits m⟩ =
      some (Except.ok (timeVariant sg (m : Int))) := by
  have h := timeFromStr_literal sg none (natToDigits m) hsg (Or.inl rfl)
    (natToDigits_ne_nil m) (natToDigits_all_isDigit m)
    (by rw [digitsVal_natToDigits]; exact hm)
  rw [show optList sg ++ natToDigits m ++ optList none = optList sg ++ natToDigits m
    from by simp [optList]] at h
  rw [digitsVal_natToDigits] at h
  rw [show timeMultOf none = 1 from rfl, mul_one] at h
  rw [i64wrap_eq_self (Int.ofNat_nonneg m) (by exact_mod_cast hm)] at h
  exact h

theorem parseI64_none_of_overflow {l : List Char} (h : ¬ digitsVal l ≤ maxI64) :
    parseI64 l = none := by
  unfold parseI64
  rw [if_neg]
  rintro ⟨_, _, hle⟩
  exact h hle

theorem sizeFromStr_digits_overflow (sg : Option Char)
    (hsg : sg = none ∨ sg = some '+' ∨ sg = some '-')
    (ds : List Char) (hne : ds ≠ []) (hd : ds.all Char.isDigit)
    (hmax : ¬ digitsVal ds ≤ maxI64) :
    FindSize.fromStr ⟨optList sg ++ ds⟩ =
      some (Except.error FailureError.intParse) := by
  have hsg2 : sg = none ∨ ∃ c, sg = some c ∧ c ∈ signChars := by
    rcases hsg with rfl | rfl | rfl
    · exact Or.inl rfl
    · exact Or.inr ⟨'+', rfl, by decide⟩
    · exact Or.inr ⟨'-', rfl, by decide⟩
  have hcap := capturesSearch_literal signChars sizeUnits (by decide) (by decide)
    sg ds [] hsg2 hne hd (Or.inl rfl)
  rw [List.append_nil] at hcap
  show (capturesSearch signChars sizeUnits (optList sg ++ ds)).map
      FindSize.fromCaps = _
  rw [hcap]
  show some (FindSize.fromCaps (optList sg, ds, [])) = _
  simp only [FindSize.fromCaps, parseI64_none_of_overflow hmax]

theorem timeFromStr_digits_overflow (sg : Option Char)
    (hsg : sg = none ∨ sg = some '+' ∨ sg = some '-')
    (ds : List Char) (hne : ds ≠ []) (hd : ds.all Char.isDigit)
    (hmax : ¬ digitsVal ds ≤ maxI64) :
    FindTime.fromStr ⟨optList sg ++ ds⟩ =
      some (Except.error FailureError.intParse) := by
  have hsg2 : sg = none ∨ ∃ c, sg = some c ∧ c ∈ signChars := by
    rcases hsg with rfl | rfl | rfl
    · exact Or.inl rfl
    · exact Or.inr ⟨'+', rfl, by decide⟩
    · exact Or.inr ⟨'-', rfl, by decide⟩
  have hcap := capturesSearch_literal signChars timeUnits (by decide) (by decide)
    sg ds [] hsg2 hne hd (Or.inl rfl)
  rw [List.append_nil] at hcap
  show (capturesSearch signChars timeUnits (optList sg ++ ds)).map
      FindTime.fromCaps = _
  rw [hcap]
  show some (FindTime.fromCaps (optList sg, ds, [])) = _
  simp only [FindTime.fromCaps, parseI64_none_of_overflow hmax]

theorem size_canonical_parse_inv (sg : Option Char)
    (hsg : sg = none ∨ sg = some '+' ∨ sg = some '-') (m : Nat) (v : FindSize)
    (h : FindSize.fromStr ⟨optList sg ++ natToDigits m⟩ = some (Except.ok v)) :
    v = sizeVariant sg (m : Int) ∧ m ≤ maxI64 := by
  by_cases hm : m ≤ maxI64
  · rw [sizeFromStr_digits sg hsg m hm] at h
    injection h with h
    injection h with h
    exact ⟨h.symm, hm⟩
  · rw [sizeFromStr_digits_overflow sg hsg (natToDigits m) (natToDigits_ne_nil m)
      (natToDigits_all_isDigit m) (by rw [digitsVal_natToDigits]; exact hm)] at h
    injection h with h
    exact Except.noConfusion h

theorem time_canonical_parse_inv (sg : Option Char)
    (hsg : sg = none ∨ sg = some '+' ∨ sg = some '-') (m : Nat) (v : FindTime)
    (h : FindTime.fromStr ⟨optList sg ++ natToDigits m⟩ = some (Except.ok v)) :
    v = timeVariant sg (m : Int) ∧ m ≤ maxI64 := by
  by_cases hm : m ≤ maxI64
  · rw [timeFromStr_digits sg hsg m hm] at h
    injection h with h
    injection h with h
    exact ⟨h.symm, hm⟩
  · rw [timeFromStr_digits_overflow sg hsg (natToDigits m) (natToDigits_ne_nil m)
      (natToDigits_all_isDigit m) (by rw [digitsVal_natToDigits]; exact hm)] at h
    injection h with h
    exact Except.noConfusion h

/-! ### Claim theorems -/

/-- C1: For every size literal `[sign][digits][unit]`, `FindSize` parsing maps
the unit to its 1024-power multiplier (none = 1, k = 1024, M = 1024^2,
G = 1024^3, T = 1024^4, P = 1024^5), computes bytes = digits × multiplier (the
multiplication being the source's `i64` multiplication, hence `i64wrap`), and
selects the variant from the sign: `+` gives Bigger, `-` gives Lower, no sign
gives Equal.  In particular `"1111"` parses to Equal 1111, `"1111k"` to
Equal (1111 × 1024), `"+1111"` to Bigger 1111, `"-1111k"` to
Lower (1111 × 1024), while a bare `"-"` and `"-123w"` fail. -/
theorem c1_size_literal_grammar :
    (∀ (sg u : Option Char) (ds : List Char),
      (sg = none ∨ sg = some '+' ∨ sg = some '-') →
      (u = none ∨ u = some 'k' ∨ u = some 'M' ∨ u = some 'G' ∨
        u = some 'T' ∨ u = some 'P') →
      ds ≠ [] → ds.all Char.isDigit → digitsVal ds ≤ maxI64 →
      FindSize.fromStr ⟨optList sg ++ ds ++ optList u⟩ =
        some (Except.ok (sizeVariant sg
          (i64wrap ((digitsVal ds : Int) * sizeMultOf u))))) ∧
    FindSize.fromStr "1111" = some (Except.ok (FindSize.Equal 1111)) ∧
    FindSize.fromStr "1111k" = some (Except.ok (FindSize.Equal (1111 * 1024))) ∧
    FindSize.fromStr "+1111" = some (Except.ok (FindSize.Bigger 1111)) ∧
    FindSize.fromStr "-1111k" = some (Except.ok (FindSize.Lower (1111 * 1024))) ∧
    (∃ e, FindSize.fromStr "-" = some (Except.error e)) ∧
    (∃ e, FindSize.fromStr "-123w" = some (Except.error e)) :=
  ⟨sizeFromStr_literal, rfl, rfl, rfl, rfl, ⟨.intParse, rfl⟩, ⟨.intParse, rfl⟩⟩

/-- Witness for C1: the general clause applied to the literal `+7k`. -/
theorem c1_size_literal_grammar_witness :
    FindSize.fromStr ⟨optList (some '+') ++ ['7'] ++ optList (some 'k')⟩ =
      some (Except.ok (sizeVariant (some '+')
        (i64wrap ((digitsVal ['7'] : Int) * sizeMultOf (some 'k'))))) :=
  c1_size_literal_grammar.1 (some '+') (some 'k') ['7']
    (Or.inr (Or.inl rfl)) (Or.inr (Or.inl rfl)) (by decide) (by decide) (by decide)

/-- C2: For every time literal `[sign][digits][unit]`, `FindTime` parsing maps
the unit to its seconds multiplier (none = 1, s = 1, m = 60, h = 3600,
d = 86400, w = 604800), computes seconds = digits × multiplier (as `i64`
multiplication), and selects the variant from the sign with an absent sign
defaulting to Upper (unlike `FindSize`, whose absent sign gives Equal): `+`
and no sign give Upper, `-` gives Lower.  In particular `"1111"` parses to
Upper 1111, `"10m"` and `"+10m"` to Upper 600, `"-10m"` to Lower 600, while
`"-10t"`, `"+10t"`, bare `"-"` and bare `"+"` fail. -/
theorem c2_time_literal_grammar :
    (∀ (sg u : Option Char) (ds : List Char),
      (sg = none ∨ sg = some '+' ∨ sg = some '-') →
      (u = none ∨ u = some 's' ∨ u = some 'm' ∨ u = some 'h' ∨
        u = some 'd' ∨ u = some 'w') →
      ds ≠ [] → ds.all Char.isDigit → digitsVal ds ≤ maxI64 →
      FindTime.fromStr ⟨optList sg ++ ds ++ optList u⟩ =
        some (Except.ok (timeVariant sg
          (i64wrap ((digitsVal ds : Int) * timeMultOf u))))) ∧
    (∀ ds : List Char, ds ≠ [] → ds.all Char.isDigit → digitsVal ds ≤ maxI64 →
      FindTime.fromStr ⟨optList none ++ ds ++ optList none⟩ =
        FindTime.fromStr ⟨optList (some '+') ++ ds ++ optList none⟩) ∧
    FindTime.fromStr "1111" = some (Except.ok (FindTime.Upper 1111)) ∧
    FindTime.fromStr "10m" = some (Except.ok (FindTime.Upper 600)) ∧
    FindTime.fromStr "+10m" = some (Except.ok (FindTime.Upper 600)) ∧
    FindTime.fromStr "-10m" = some (Except.ok (FindTime.Lower 600)) ∧
    (∃ e, FindTime.fromStr "-10t" = some (Except.error e)) ∧
    (∃ e, FindTime.fromStr "+10t" = some (Except.error e)) ∧
    (∃ e, FindTime.fromStr "-" = some (Except.error e)) ∧
    (∃ e, FindTime.fromStr "+" = some (Except.error e)) := by
  refine ⟨timeFromStr_literal, ?_, rfl, rfl, rfl, rfl,
    ⟨.intParse, rfl⟩, ⟨.intParse, rfl⟩, ⟨.intParse, rfl⟩, ⟨.intParse, rfl⟩⟩
  intro ds hne hd hmax
  rw [timeFromStr_literal none none ds (Or.inl rfl) (Or.inl rfl) hne hd hmax,
    timeFromStr_literal (some '+') none ds (Or.inr (Or.inl rfl)) (Or.inl rfl)
      hne hd hmax]
  rfl

/-- Witness for C2: the general clause applied to the literal `-10m`. -/
theorem c2_time_literal_grammar_witness :
    FindTime.fromStr ⟨optList (some '-') ++ ['1', '0'] ++ optList (some 'm')⟩ =
      some (Except.ok (timeVariant (some '-')
        (i64wrap ((digitsVal ['1', '0'] : Int) * timeMultOf (some 'm'))))) :=
  c2_time_literal_grammar.1 (some '-') (some 'm') ['1', '0']
    (Or.inr (Or.inr rfl)) (Or.inr (Or.inr (Or.inl rfl))) (by decide) (by decide)
    (by decide)

/-- C9: for every input, the regexes `([+-]?)(\d*)([kMGTP]?)$` and
`([+-]?)(\d*)([smhdw]?)$` find a match (all groups are optional, so at worst
the empty match at the end of the input), hence the unwrap of the captures
never panics (`FindSize.fromStr`/`FindTime.fromStr` never return `none` in
this model) and both parsers are total, returning Ok or Err on every input. -/
theorem c9_regex_always_matches (s : String) :
    (capturesSearch signChars sizeUnits s.data).isSome ∧
    (capturesSearch signChars timeUnits s.data).isSome ∧
    (FindSize.fromStr s).isSome ∧ (FindTime.fromStr s).isSome := by
  refine ⟨capturesSearch_isSome signChars sizeUnits s.data,
    capturesSearch_isSome signChars timeUnits s.data, ?_, ?_⟩
  · cases h : capturesSearch signChars sizeUnits s.data with
    | none =>
        have := capturesSearch_isSome signChars sizeUnits s.data
        rw [h] at this
        exact absurd this (by simp)
    | some caps => simp [FindSize.fromStr, h]
  · cases h : capturesSearch signChars timeUnits s.data with
    | none =>
        have := capturesSearch_isSome signChars timeUnits s.data
        rw [h] at this
        exact absurd this (by simp)
    | some caps => simp [FindTime.fromStr, h]

/-- C10: the size, time and tag grammars are anchored only at the end of the
input, so inputs with extra leading characters parse via their grammatical
suffix, silently ignoring the leading characters: `"abc123k"` parses as size
Equal (123 × 1024), `"abc10m"` as time Upper 600, and `"x-y:z"` parses as the
tag `{key := "y", value := "z"}`. -/
theorem c10_end_anchoring_ignores_leading_junk :
    FindSize.fromStr "abc123k" = some (Except.ok (FindSize.Equal (123 * 1024))) ∧
    FindTime.fromStr "abc10m" = some (Except.ok (FindTime.Upper 600)) ∧
    FindTag.fromStr "x-y:z" = Except.ok ⟨"y", "z"⟩ :=
  ⟨rfl, rfl, rfl⟩

/-- C4 counterexample: the claim says `FindTag` parsing succeeds exactly on
strings that consist of `key:value` over `\w`, but `"x-y:z"` contains `'-'`
(not a word character and not the separator), so it is not of that form, yet
parsing succeeds (on the suffix `y:z`). -/
theorem c4_counterexample :
    FindTag.fromStr "x-y:z" = Except.ok ⟨"y", "z"⟩ ∧
    ¬ ∃ k v : List Char, "x-y:z".data = k ++ ':' :: v ∧
        k.all isWordChar ∧ v.all isWordChar := by
  refine ⟨rfl, ?_⟩
  rintro ⟨k, v, heq, hka, hva⟩
  have hmem : '-' ∈ "x-y:z".data := by decide
  rw [heq] at hmem
  rcases List.mem_append.mp hmem with hk | hv'
  · exact absurd (List.all_eq_true.mp hka '-' hk) (by decide)
  · rcases List.mem_cons.mp hv' with hceq | hv2
    · exact absurd hceq (by decide)
    · exact absurd (List.all_eq_true.mp hva '-' hv2) (by decide)

/-- C4 (amended): `FindTag` parsing succeeds exactly on strings with a
suffix of the form `key:value` where key and value match `\w+` and nothing
follows the value (the regex is anchored only at the end, so anything may
precede the key); `"tag1:value2"` parses to `{key := "tag1",
value := "value2"}`, while `"tag1value2"`, `"tag1:value2:"` and `":"` fail. -/
theorem c4_tag_suffix_grammar :
    (∀ s : String, (∃ t, FindTag.fromStr s = Except.ok t) ↔
      ∃ pre k v : List Char, s.data = pre ++ k ++ ':' :: v ∧ k ≠ [] ∧
        k.all isWordChar ∧ v ≠ [] ∧ v.all isWordChar) ∧
    FindTag.fromStr "tag1:value2" = Except.ok ⟨"tag1", "value2"⟩ ∧
    (∃ e, FindTag.fromStr "tag1value2" = Except.error e) ∧
    (∃ e, FindTag.fromStr "tag1:value2:" = Except.error e) ∧
    (∃ e, FindTag.fromStr ":" = Except.error e) := by
  refine ⟨?_, rfl, ⟨_, rfl⟩, ⟨_, rfl⟩, ⟨_, rfl⟩⟩
  intro s
  constructor
  · rintro ⟨t, ht⟩
    unfold FindTag.fromStr at ht
    cases hts : tagSearch s.data with
    | none =>
        rw [hts] at ht
        exact Except.noConfusion ht
    | some kv =>
        obtain ⟨pre, hp, hk, hka, hv, hva⟩ :=
          tagSearch_sound s.data kv.1 kv.2 (by rw [hts])
        exact ⟨pre, kv.1, kv.2, hp, hk, hka, hv, hva⟩
  · rintro ⟨pre, k, v, heq, hk, hka, hv, hva⟩
    have hsome := tagSearch_complete pre k v hk hka hv hva
    rw [← heq] at hsome
    unfold FindTag.fromStr
    cases hts : tagSearch s.data with
    | none =>
        rw [hts] at hsome
        exact absurd hsome (by simp)
    | some kv => exact ⟨⟨⟨kv.1⟩, ⟨kv.2⟩⟩, rfl⟩

/-- Witness for C4: the amended grammar clause applied to `"a:b"`. -/
theorem c4_tag_suffix_grammar_witness :
    ∃ t, FindTag.fromStr "a:b" = Except.ok t :=
  (c4_tag_suffix_grammar.1 "a:b").mpr
    ⟨[], ['a'], ['b'], rfl, by decide, by decide, by decide, by decide⟩

/-- C5 counterexample: `"-123w"` is a malformed size literal and `"-10t"` a
malformed time literal, but both fail with the propagated integer-parse error
(the regex's optional unit group drops the invalid unit, leaving an empty
digits capture), not with the `SizeParse`/`TimeParse` kinds the claim names. -/
theorem c5_counterexample :
    FindSize.fromStr "-123w" = some (Except.error FailureError.intParse) ∧
    FindTime.fromStr "-10t" = some (Except.error FailureError.intParse) ∧
    FailureError.intParse ≠ FailureError.find FindError.SizeParse ∧
    FailureError.intParse ≠ FailureError.find FindError.TimeParse :=
  ⟨rfl, rfl, by decide, by decide⟩

/-- C5 (amended): every failure of `FindSize`/`FindTime` parsing is the
integer-parse error propagated by `?` from parsing the digits capture; the
`SizeParse`/`TimeParse` error kinds are unreachable, because the optional
sign and unit groups can only capture characters of their classes. -/
theorem c5_error_is_int_parse :
    (∀ (s : String) (e : FailureError),
        FindSize.fromStr s = some (Except.error e) → e = FailureError.intParse) ∧
    (∀ (s : String) (e : FailureError),
        FindTime.fromStr s = some (Except.error e) → e = FailureError.intParse) := by
  constructor
  · intro s e h
    unfold FindSize.fromStr at h
    cases hc : capturesSearch signChars sizeUnits s.data with
    | none =>
        rw [hc] at h
        exact Option.noConfusion h
    | some caps =>
        rw [hc] at h
        injection h with h
        obtain ⟨hs, hu⟩ := capturesSearch_shape s.data caps hc
        exact sizeFromCaps_error hs hu h
  · intro s e h
    unfold FindTime.fromStr at h
    cases hc : capturesSearch signChars timeUnits s.data with
    | none =>
        rw [hc] at h
        exact Option.noConfusion h
    | some caps =>
        rw [hc] at h
        injection h with h
        obtain ⟨hs, hu⟩ := capturesSearch_shape s.data caps hc
        exact timeFromCaps_error hs hu h

/-- Witness for C5: the amended clause applied to the failing input `"-"`. -/
theorem c5_error_is_int_parse_witness : FailureError.intParse = FailureError.intParse :=
  c5_error_is_int_parse.1 "-" FailureError.intParse rfl

/-- C6 counterexample: for `":value"` the key is empty and for `"tag1:"` the
value is empty, but both fail with `TagParseError` (the whole regex fails to
match), not with the `TagKeyParseError`/`TagValueParseError` kinds the claim
says distinguish those cases. -/
theorem c6_counterexample :
    FindTag.fromStr ":value" =
      Except.error (FailureError.find FindError.TagParseError) ∧
    FindTag.fromStr "tag1:" =
      Except.error (FailureError.find FindError.TagParseError) ∧
    FindError.TagParseError ≠ FindError.TagKeyParseError ∧
    FindError.TagParseError ≠ FindError.TagValueParseError :=
  ⟨rfl, rfl, by decide, by decide⟩

/-- C6 (amended): every malformed tag literal fails with the single
`TagParseError` kind (produced when the regex `(\w+):(\w+)$` fails to match
as a whole); the `TagKeyParseError` and `TagValueParseError` kinds are
declared but never produced, since both groups of the regex necessarily
participate in any match. -/
theorem c6_tag_error_kind :
    (∀ (s : String) (e : FailureError), FindTag.fromStr s = Except.error e →
        e = FailureError.find FindError.TagParseError) ∧
    FindTag.fromStr "tag1value2" =
      Except.error (FailureError.find FindError.TagParseError) :=
  ⟨tagFromStr_error, rfl⟩

/-- Witness for C6: the amended clause applied to the failing input `":"`. -/
theorem c6_tag_error_kind_witness :
    FailureError.find FindError.TagParseError =
      FailureError.find FindError.TagParseError :=
  c6_tag_error_kind.1 ":" (FailureError.find FindError.TagParseError) rfl

theorem applySizeSign_ok {sg : Option Char} {b : Int} {v : FindSize}
    (h : applySizeSign sg b = Except.ok v) : FindSize.bytes v = b := by
  unfold applySizeSign at h
  split at h <;>
    first
    | (injection h with h; subst h; rfl)
    | exact Except.noConfusion h

theorem sizeMultOf_pos (u : Option Char) : 0 < sizeMultOf u := by
  unfold sizeMultOf
  split <;> norm_num

theorem sizeBytes_eq_wrap {n b : Int} {u : Option Char}
    (hn0 : 0 ≤ n) (hnm : n ≤ (maxI64 : Int))
    (hu : u = none ∨ ∃ c, u = some c ∧ c ∈ sizeUnits)
    (h : sizeBytes n u = some b) : b = i64wrap (n * sizeMultOf u) := by
  rcases hu with rfl | ⟨c, rfl, hc⟩
  · injection h with h
    rw [← h]
    show n = i64wrap (n * 1)
    rw [mul_one, i64wrap_eq_self hn0 hnm]
  · fin_cases hc <;> (injection h with h; exact h.symm)

/-- C7 counterexample: `"8192P"` is a well-formed size literal that parses
successfully, but 8192 × 1024^5 = 2^63 overflows `i64` and wraps to
−2^63, so the stored byte count is negative. -/
theorem c7_counterexample :
    FindSize.fromStr "8192P" =
      some (Except.ok (FindSize.Equal (-9223372036854775808))) ∧
    FindSize.bytes (FindSize.Equal (-9223372036854775808)) < 0 :=
  ⟨rfl, by decide⟩

/-- C7 (amended): for every size literal that parses successfully, the stored
byte count is exactly the `i64`-wrap of the literal's own parsed digits (the
value `parseI64` returns on the digits capture of the actual match, hence
≥ 0: the capture has no sign) times the multiplier of the literal's own unit
capture (positive), and whenever that mathematical product does not exceed
`i64::MAX` the stored bytes are ≥ 0 — the comparison's sign is carried by the
variant tag; on overflow (the counterexample) the wrap can be negative.  The
captures and the number are pinned by the `capturesSearch`/`parseI64`
equations, so the statement ties bytes to the input's digits and unit. -/
theorem c7_bytes_nonneg_without_overflow :
    ∀ (s : String) (v : FindSize), FindSize.fromStr s = some (Except.ok v) →
      ∃ (caps : List Char × List Char × List Char) (n : Int),
        capturesSearch signChars sizeUnits s.data = some caps ∧
        parseI64 caps.2.1 = some n ∧ 0 ≤ n ∧
        FindSize.bytes v = i64wrap (n * sizeMultOf caps.2.2.head?) ∧
        (n * sizeMultOf caps.2.2.head? ≤ (maxI64 : Int) →
          0 ≤ FindSize.bytes v) := by
  intro s v h
  unfold FindSize.fromStr at h
  cases hc : capturesSearch signChars sizeUnits s.data with
  | none =>
      rw [hc] at h
      exact Option.noConfusion h
  | some caps =>
      rw [hc] at h
      injection h with h
      obtain ⟨_, hu⟩ := capturesSearch_shape s.data caps hc
      obtain ⟨sgl, ds, ul⟩ := caps
      simp only at hu
      cases hp : parseI64 ds with
      | none =>
          simp only [FindSize.fromCaps, hp] at h
          exact Except.noConfusion h
      | some n =>
          cases hb : sizeBytes n ul.head? with
          | none =>
              simp only [FindSize.fromCaps, hp, hb] at h
              exact Except.noConfusion h
          | some b =>
              simp only [FindSize.fromCaps, hp, hb] at h
              obtain ⟨hn0, hn1⟩ := parseI64_inv hp
              have hu' : ul.head? = none ∨
                  ∃ c, ul.head? = some c ∧ c ∈ sizeUnits := by
                rcases hu with h1 | ⟨c, h1, hcm⟩
                · rw [h1]
                  exact Or.inl rfl
                · rw [h1]
                  exact Or.inr ⟨c, rfl, hcm⟩
              have hwrap : b = i64wrap (n * sizeMultOf ul.head?) :=
                sizeBytes_eq_wrap hn0 hn1 hu' hb
              have hbytes := applySizeSign_ok h
              have hmpos := sizeMultOf_pos ul.head?
              refine ⟨(sgl, ds, ul), n, rfl, hp, hn0, by rw [hbytes, hwrap], ?_⟩
              intro hle
              rw [hbytes, hwrap,
                i64wrap_eq_self (mul_nonneg hn0 (le_of_lt hmpos)) hle]
              exact mul_nonneg hn0 (le_of_lt hmpos)

/-- Witness for C7: the amended clause applied to `"5k"`, which parses to
Equal 5120 via the captures `("", "5", "k")`. -/
theorem c7_bytes_nonneg_without_overflow_witness :
    ∃ (caps : List Char × List Char × List Char) (n : Int),
      capturesSearch signChars sizeUnits "5k".data = some caps ∧
      parseI64 caps.2.1 = some n ∧ 0 ≤ n ∧
      FindSize.bytes (FindSize.Equal 5120) =
        i64wrap (n * sizeMultOf caps.2.2.head?) ∧
      (n * sizeMultOf caps.2.2.head? ≤ (maxI64 : Int) →
        0 ≤ FindSize.bytes (FindSize.Equal 5120)) :=
  c7_bytes_nonneg_without_overflow "5k" (FindSize.Equal 5120) rfl

/-- C3: `S3path` parsing succeeds exactly on strings beginning with `s3://`
followed by a non-empty bucket segment (the slash-separated segment at index
2); on success the bucket is that segment, and for `s3://bucket/prefix` (with
bucket and prefix single segments) the path part is `some prefix`; for
`s3://bucket` it is absent and for `s3://bucket/` it is `some ""`;
`"testbucket"`, `"s3://"` and `"s3:/testbucket"` fail. -/
theorem c3_s3path_parse :
    (∀ s : String, (∃ p, S3path.fromStr s = Except.ok p) ↔
      ("s3://".data <+: s.data ∧
        ∃ seg, (splitCh '/' s.data).get? 2 = some seg ∧ seg ≠ [])) ∧
    (∀ (s : String) (p : S3path), S3path.fromStr s = Except.ok p →
      (splitCh '/' s.data).get? 2 = some p.bucket.data) ∧
    (∀ bucket pfx : String, '/' ∉ bucket.data → bucket ≠ "" → '/' ∉ pfx.data →
      S3path.fromStr ("s3://" ++ bucket ++ "/" ++ pfx) =
        Except.ok ⟨bucket, some pfx⟩) ∧
    (∀ bucket : String, '/' ∉ bucket.data → bucket ≠ "" →
      S3path.fromStr ("s3://" ++ bucket) = Except.ok ⟨bucket, none⟩ ∧
      S3path.fromStr ("s3://" ++ bucket ++ "/") = Except.ok ⟨bucket, some ""⟩) ∧
    S3path.fromStr "testbucket" =
      Except.error (FailureError.find FindError.S3Parse) ∧
    S3path.fromStr "s3://" = Except.error (FailureError.find FindError.S3Parse) ∧
    S3path.fromStr "s3:/testbucket" =
      Except.error (FailureError.find FindError.S3Parse) := by
  refine ⟨fun s => ⟨fun h => s3FromStr_ok_conditions h,
      fun h => s3FromStr_ok_of_conditions h.1 h.2⟩,
    fun s p h => s3FromStr_bucket_eq h, ?_, ?_, rfl, rfl, rfl⟩
  · intro bucket pfx hb hbne hp
    have hbd : bucket.data ≠ [] := (str_ne_empty_iff bucket).mp hbne
    have hdata : ("s3://" ++ bucket ++ "/" ++ pfx).data =
        "s3://".data ++ (bucket.data ++ '/' :: pfx.data) := by
      rw [str_data_append, str_data_append, str_data_append]
      simp
    have hv : splitCh '/' ("s3://" ++ bucket ++ "/" ++ pfx).data =
        "s3:".data :: [] :: bucket.data :: [pfx.data] := by
      rw [hdata, splitCh_s3_prefix, splitCh_append_sep pfx.data hb,
        splitCh_no_sep hp]
    unfold S3path.fromStr
    rw [hv, if_pos ⟨rfl, rfl, hbd⟩]
    rfl
  · intro bucket hb hbne
    have hbd : bucket.data ≠ [] := (str_ne_empty_iff bucket).mp hbne
    constructor
    · have hv : splitCh '/' ("s3://" ++ bucket).data =
          "s3:".data :: [] :: [bucket.data] := by
        rw [str_data_append, splitCh_s3_prefix, splitCh_no_sep hb]
      unfold S3path.fromStr
      rw [hv, if_pos ⟨rfl, rfl, hbd⟩]
      rfl
    · have hdata : ("s3://" ++ bucket ++ "/").data =
          "s3://".data ++ (bucket.data ++ '/' :: []) := by
        rw [str_data_append, str_data_append]
        simp
      have hv : splitCh '/' ("s3://" ++ bucket ++ "/").data =
          "s3:".data :: [] :: bucket.data :: [[]] := by
        rw [hdata, splitCh_s3_prefix, splitCh_append_sep [] hb]
        rfl
      unfold S3path.fromStr
      rw [hv, if_pos ⟨rfl, rfl, hbd⟩]
      rfl

/-- Witness for C3: the `s3://bucket/prefix` clause applied to bucket `"b"`
and path part `"p"`. -/
theorem c3_s3path_parse_witness :
    S3path.fromStr ("s3://" ++ "b" ++ "/" ++ "p") = Except.ok ⟨"b", some "p"⟩ :=
  c3_s3path_parse.2.2.1 "b" "p" (by decide) (by decide) (by decide)

/-- C8: re-parsing the canonical string form (modelled from the spec, see
`FindSize.canonical`/`FindTime.canonical`) of a value obtained by parsing a
canonical string yields the same value: for any string already in canonical
form (the canonical form of some `w`) that parses successfully to `v`,
re-parsing the canonical form of `v` returns exactly `v`, for both `FindSize`
and `FindTime`. -/
theorem c8_canonical_roundtrip :
    (∀ w v : FindSize,
        FindSize.fromStr (FindSize.canonical w) = some (Except.ok v) →
        FindSize.fromStr (FindSize.canonical v) = some (Except.ok v)) ∧
    (∀ w v : FindTime,
        FindTime.fromStr (FindTime.canonical w) = some (Except.ok v) →
        FindTime.fromStr (FindTime.canonical v) = some (Except.ok v)) := by
  constructor
  · intro w v h
    cases w with
    | Equal b =>
        obtain ⟨rfl, hm⟩ :=
          size_canonical_parse_inv none (Or.inl rfl) b.toNat v h
        have hres := sizeFromStr_digits none (Or.inl rfl) b.toNat hm
        have hcan : FindSize.canonical (sizeVariant none ((b.toNat : Nat) : Int)) =
            (⟨optList none ++ natToDigits b.toNat⟩ : String) := by
          show (⟨natToDigits (((b.toNat : Nat) : Int)).toNat⟩ : String) = _
          rw [show (((b.toNat : Nat) : Int)).toNat = b.toNat from by omega]
          rfl
        rw [hcan]
        exact hres
    | Bigger b =>
        obtain ⟨rfl, hm⟩ :=
          size_canonical_parse_inv (some '+') (Or.inr (Or.inl rfl)) b.toNat v h
        have hres := sizeFromStr_digits (some '+') (Or.inr (Or.inl rfl)) b.toNat hm
        have hcan : FindSize.canonical (sizeVariant (some '+') ((b.toNat : Nat) : Int)) =
            (⟨optList (some '+') ++ natToDigits b.toNat⟩ : String) := by
          show (⟨'+' :: natToDigits (((b.toNat : Nat) : Int)).toNat⟩ : String) = _
          rw [show (((b.toNat : Nat) : Int)).toNat = b.toNat from by omega]
          rfl
        rw [hcan]
        exact hres
    | Lower b =>
        obtain ⟨rfl, hm⟩ :=
          size_canonical_parse_inv (some '-') (Or.inr (Or.inr rfl)) b.toNat v h
        have hres := sizeFromStr_digits (some '-') (Or.inr (Or.inr rfl)) b.toNat hm
        have hcan : FindSize.canonical (sizeVariant (some '-') ((b.toNat : Nat) : Int)) =
            (⟨optList (some '-') ++ natToDigits b.toNat⟩ : String) := by
          show (⟨'-' :: natToDigits (((b.toNat : Nat) : Int)).toNat⟩ : String) = _
          rw [show (((b.toNat : Nat) : Int)).toNat = b.toNat from by omega]
          rfl
        rw [hcan]
        exact hres
  · intro w v h
    cases w with
    | Upper b =>
        obtain ⟨rfl, hm⟩ :=
          time_canonical_parse_inv none (Or.inl rfl) b.toNat v h
        have hres := timeFromStr_digits none (Or.inl rfl) b.toNat hm
        have hcan : FindTime.canonical (timeVariant none ((b.toNat : Nat) : Int)) =
            (⟨optList none ++ natToDigits b.toNat⟩ : String) := by
          show (⟨natToDigits (((b.toNat : Nat) : Int)).toNat⟩ : String) = _
          rw [show (((b.toNat : Nat) : Int)).toNat = b.toNat from by omega]
          rfl
        rw [hcan]
        exact hres
    | Lower b =>
        obtain ⟨rfl, hm⟩ :=
          time_canonical_parse_inv (some '-') (Or.inr (Or.inr rfl)) b.toNat v h
        have hres := timeFromStr_digits (some '-') (Or.inr (Or.inr rfl)) b.toNat hm
        have hcan : FindTime.canonical (timeVariant (some '-') ((b.toNat : Nat) : Int)) =
            (⟨optList (some '-') ++ natToDigits b.toNat⟩ : String) := by
          show (⟨'-' :: natToDigits (((b.toNat : Nat) : Int)).toNat⟩ : String) = _
          rw [show (((b.toNat : Nat) : Int)).toNat = b.toNat from by omega]
          rfl
        rw [hcan]
        exact hres

/-- Witness for C8: the size clause applied to the canonical string of
Equal 7 (namely `"7"`). -/
theorem c8_canonical_roundtrip_witness :
    FindSize.fromStr (FindSize.canonical (FindSize.Equal 7)) =
      some (Except.ok (FindSize.Equal 7)) :=
  c8_canonical_roundtrip.1 (FindSize.Equal 7) (FindSize.Equal 7) rfl

/-- Witness for C9: totality at the concrete input `"-"`. -/
theorem c9_regex_always_matches_witness :
    (capturesSearch signChars sizeUnits "-".data).isSome ∧
    (capturesSearch signChars timeUnits "-".data).isSome ∧
    (FindSize.fromStr "-").isSome ∧ (FindTime.fromStr "-").isSome :=
  c9_regex_always_matches "-"
